import Mathlib

/-!
# Verification of the `quick_contrast` contrast estimator

This file embeds the `quick_contrast` routine defined identically in
`notebooks/nircam_photon_noise_and_contrast.ipynb` and
`notebooks/miri_photon_noise_and_contrast.ipynb`:

```python
def quick_contrast(occulted_image, unocculted_image, n_annuli=20):
    kernel = np.array([[0,0,1,0,0],
                       [0,1,1,1,0],
                       [1,1,1,1,1],
                       [0,1,1,1,0],
                       [0,0,1,0,0]]).astype(float)
    unocc_aperture = fftconvolve(unocculted_image, kernel, mode='valid')
    norm = np.max(unocc_aperture)
    occ_aperture = fftconvolve(occulted_image, kernel, mode='valid')
    indices = np.indices(unocc_aperture.shape)
    center = np.array(unocc_aperture.shape) / 2.
    radial = np.sqrt((indices[0]-center[0])**2 + (indices[1]-center[1])**2)
    radial_bins = np.linspace(0, np.max(radial), num=n_annuli)
    annuli_inds = np.digitize(radial, radial_bins)
    contrast = np.array([np.std(occ_aperture[annuli_inds == a])
                         for a in np.unique(annuli_inds)]) / norm
    return radial_bins, contrast
```

Modelling conventions:

* Images are functions `ℕ → ℕ → ℚ` together with explicit dimensions
  (`m` rows, `n` columns); float arithmetic is modelled by exact rational
  arithmetic.
* Quantities that NumPy computes through `np.sqrt` (the radial-distance
  map, the `linspace` edges, and `np.std`) are carried around by their
  *squares*, which are rational; the real-valued quantity is recovered
  in theorem statements as `Real.sqrt` of the stored square.  In
  particular the per-annulus value `np.std(vals)` is `Real.sqrt` of the
  stored population variance, the contrast value of an annulus with
  variance `v` is `Real.sqrt v / norm`, and the `k`-th entry of
  `radial_bins = np.linspace(0, rmax, n_annuli)` is
  `k / (n_annuli - 1) * Real.sqrt rmaxSq`.
* `scipy.signal.fftconvolve(a, k, mode='valid')` raises `ValueError`
  unless one operand is at least as large as the other in every
  dimension; otherwise it returns the fully-overlapping window of the
  full convolution, of shape `|shape(a) - shape(k)| + 1`.  NumPy boolean
  indexing `occ_aperture[annuli_inds == a]` raises `IndexError` when the
  mask shape differs from the array shape.  Both failure modes are
  modelled with `Except`.  `np.max` of an empty (zero-sized) array also
  raises, so zero-sized input images are modelled as an error as well.
-/

/-- The fixed 5×5 plus-shaped aperture kernel, as a row-major list of rows. -/
def kernelRows : List (List ℚ) :=
  [[0,0,1,0,0],
   [0,1,1,1,0],
   [1,1,1,1,1],
   [0,1,1,1,0],
   [0,0,1,0,0]]

/-- Kernel entry at row `a`, column `b` (0 outside the 5×5 support). -/
def kernel (a b : ℕ) : ℚ := ((kernelRows.getD a []).getD b 0)

/-- Full 2-D convolution of an `m × n` image `f` with the (symmetric) plus
kernel, evaluated at output position `(u, v)`:
`full[u][v] = Σ_{k<m, l<n} f k l * kernel (u-k) (v-l)` (terms with `k > u`
or `l > v`, and kernel indices ≥ 5, contribute 0). -/
def fullConv (m n : ℕ) (f : ℕ → ℕ → ℚ) (u v : ℕ) : ℚ :=
  ∑ k ∈ Finset.range m, ∑ l ∈ Finset.range n,
    if k ≤ u ∧ l ≤ v then f k l * kernel (u - k) (v - l) else 0

/-- Output size along one axis of `fftconvolve(·, kernel, mode='valid')`
for an input axis of length `m`: `|m - 5| + 1`. -/
def convDim (m : ℕ) : ℕ := max m 5 - min m 5 + 1

/-- Shape acceptance rule of `scipy.signal.fftconvolve(img, kernel, mode='valid')`: it accepts the pair of
shapes only when one operand is at least as large as the other in every
dimension; otherwise it raises `ValueError`. -/
def shapeOK (m n : ℕ) : Prop := (5 ≤ m ∧ 5 ≤ n) ∨ (m ≤ 5 ∧ n ≤ 5)

instance (m n : ℕ) : Decidable (shapeOK m n) := by
  unfold shapeOK; infer_instance

/-- Value of the 'valid'-mode convolution at output pixel `(i, j)`: the valid
window of the full convolution starts at offset `min(m,5) - 1` along each
axis. -/
def convValid (m n : ℕ) (f : ℕ → ℕ → ℚ) (i j : ℕ) : ℚ :=
  fullConv m n f (i + (min m 5 - 1)) (j + (min n 5 - 1))

/-- Row-major enumeration of the pixel coordinates of a `dm × dn` grid
(the flattening order NumPy uses for boolean indexing). -/
def gridPixels (dm dn : ℕ) : List (ℕ × ℕ) :=
  (List.range dm).flatMap (fun i => (List.range dn).map (fun j => (i, j)))

/-- Center coordinate `np.array(shape) / 2.` along one axis. -/
def centerCoord (m : ℕ) : ℚ := (m : ℚ) / 2

/-- Square of the radial distance of pixel `(i, j)` from the geometric center
of a `dm × dn` grid; `radial[i][j]` in the source is `Real.sqrt` of this. -/
def radialSq (dm dn : ℕ) (i j : ℕ) : ℚ :=
  ((i : ℚ) - centerCoord dm) ^ 2 + ((j : ℚ) - centerCoord dn) ^ 2

/-- Model of `np.max` on a list of rationals (0 for the empty list, which NumPy
rejects; all uses are on nonempty lists). -/
def qmax : List ℚ → ℚ
  | [] => 0
  | [x] => x
  | x :: y :: t => if x ≤ qmax (y :: t) then qmax (y :: t) else x

/-- Model of `np.mean` on a list of rationals. -/
def qmean (l : List ℚ) : ℚ := l.sum / (l.length : ℚ)

/-- Population variance (`ddof = 0`), the square of `np.std`. -/
def qvar (l : List ℚ) : ℚ :=
  ((l.map (fun x => (x - qmean l) ^ 2)).sum) / (l.length : ℚ)

/-- Square of `np.max(radial)` over a `dm × dn` grid: the maximum of the
squared radial distances (the square of the maximum, as `Real.sqrt` is
monotone and all entries are nonnegative). -/
def rmaxGridSq (dm dn : ℕ) : ℚ :=
  qmax ((gridPixels dm dn).map (fun p => radialSq dm dn p.1 p.2))

/-- Annulus index `np.digitize(radial[i][j], np.linspace(0, rmax, nA))`.

For an increasing edge list, `np.digitize(x, bins)` (with the default
`right=False`) equals `np.searchsorted(bins, x, side='right')`, the number
of edges `≤ x`.  The `k`-th `linspace` edge is `k / (nA - 1) * rmax`
(`rmax = Real.sqrt (rmaxGridSq dm dn)`), and for nonnegative `r` and `rmax`
the comparison `k / (nA - 1) * rmax ≤ r` is equivalent to the rational
comparison `k² * rmaxSq ≤ rSq * (nA - 1)²` obtained by squaring both
sides; that equivalence is proved as `annIdx_eq_card_realEdges` below.
(For `nA = 1` the edge list is `[0]` and this count is 1 for every pixel;
for `nA = 0` it is empty and the count is 0 — matching `np.digitize`.) -/
def annIdx (dm dn nA : ℕ) (i j : ℕ) : ℕ :=
  ((Finset.range nA).filter
    (fun (k : ℕ) => ((k : ℚ)) ^ 2 * rmaxGridSq dm dn ≤
      radialSq dm dn i j * ((nA - 1 : ℕ) : ℚ) ^ 2)).card

/-- Model of `np.unique(annuli_inds)`: the sorted list of distinct annulus indices
occurring on the grid.  Every `annIdx` value is at most `nA` (it is the
cardinality of a subset of `Finset.range nA`), so filtering
`List.range (nA + 1)` enumerates exactly the occupied indices, in
increasing order without repetition, as `np.unique` does. -/
def occupiedBins (dm dn nA : ℕ) : List ℕ :=
  (List.range (nA + 1)).filter
    (fun a => (gridPixels dm dn).any (fun p => annIdx dm dn nA p.1 p.2 == a))

/-- Model of `occ_aperture[annuli_inds == a]`: the row-major list of convolved-image
values at pixels assigned to annulus index `a`. -/
def binVals (dm dn nA : ℕ) (g : ℕ → ℕ → ℚ) (a : ℕ) : List ℚ :=
  (gridPixels dm dn).filterMap
    (fun p => if annIdx dm dn nA p.1 p.2 = a then some (g p.1 p.2) else none)

/-- Row-major list of the values of `unocc_aperture` (or `occ_aperture`):
the 'valid' convolution of an `m × n` image evaluated over its
`convDim m × convDim n` grid. -/
def uVals (m n : ℕ) (f : ℕ → ℕ → ℚ) : List ℚ :=
  (gridPixels (convDim m) (convDim n)).map (fun p => convValid m n f p.1 p.2)

/-- Failure modes of `quick_contrast`:
* `emptyImage` — a zero-sized input image (`np.max` of an empty
  convolution result raises `ValueError`);
* `invalidValidMode` — `fftconvolve(·, ·, mode='valid')` raises
  `ValueError` because neither operand is at least as large as the other
  in every dimension;
* `maskShapeMismatch` — boolean indexing
  `occ_aperture[annuli_inds == a]` raises `IndexError` because the two
  convolved images differ in shape. -/
inductive QCError where
  | emptyImage : QCError
  | invalidValidMode : QCError
  | maskShapeMismatch : QCError
deriving DecidableEq

/-- The data returned (or computed on the way) by a successful
`quick_contrast` call:
* `dm × dn` — shape of the convolved grid (`unocc_aperture.shape`);
* `nA` — the `n_annuli` argument; the returned `radial_bins` is
  `np.linspace(0, Real.sqrt rmaxSq, nA)`, i.e. its `k`-th entry is
  `k / (nA - 1) * Real.sqrt rmaxSq`;
* `rmaxSq` — square of `np.max(radial)`;
* `norm` — `np.max(unocc_aperture)`;
* `binsIdx` — `np.unique(annuli_inds)`;
* `variances` — squares of the per-annulus `np.std` values, in the order
  of `binsIdx`; the returned `contrast` entry for variance `v` is
  `Real.sqrt v / norm`. -/
structure QCOut where
  dm : ℕ
  dn : ℕ
  nA : ℕ
  rmaxSq : ℚ
  norm : ℚ
  binsIdx : List ℕ
  variances : List ℚ
deriving DecidableEq

/-- The output of a successful `quick_contrast` call, field by field (see
`QCOut` for the correspondence with the source). -/
def qcCanonical (mo no : ℕ) (occ : ℕ → ℕ → ℚ)
    (mu nu : ℕ) (unocc : ℕ → ℕ → ℚ) (nA : ℕ) : QCOut :=
  { dm := convDim mu
    dn := convDim nu
    nA := nA
    rmaxSq := rmaxGridSq (convDim mu) (convDim nu)
    norm := qmax (uVals mu nu unocc)
    binsIdx := occupiedBins (convDim mu) (convDim nu) nA
    variances := (occupiedBins (convDim mu) (convDim nu) nA).map
      (fun a => qvar (binVals (convDim mu) (convDim nu) nA
        (convValid mo no occ) a)) }

/-- Shallow embedding of `quick_contrast(occulted_image, unocculted_image,
n_annuli)` for an `mo × no` occulted image `occ` and an `mu × nu`
unocculted image `unocc`.  The checks mirror, in source order, the
operations that can raise: the two 'valid' convolutions (shape
compatibility; zero-sized operands), and the boolean indexing (mask shape
equal to `occ_aperture` shape).  `norm = 0` is *not* an error: NumPy
division of an array by zero emits a warning and produces non-finite
values, and the function still returns. -/
def quick_contrast (mo no : ℕ) (occ : ℕ → ℕ → ℚ)
    (mu nu : ℕ) (unocc : ℕ → ℕ → ℚ) (nA : ℕ) : Except QCError QCOut :=
  if 1 ≤ mu ∧ 1 ≤ nu ∧ 1 ≤ mo ∧ 1 ≤ no then
    if shapeOK mu nu then
      if shapeOK mo no then
        if convDim mo = convDim mu ∧ convDim no = convDim nu then
          Except.ok (qcCanonical mo no occ mu nu unocc nA)
        else Except.error QCError.maskShapeMismatch
      else Except.error QCError.invalidValidMode
    else Except.error QCError.invalidValidMode
  else Except.error QCError.emptyImage

/-- Shape conditions under which `quick_contrast` runs to completion:
nonzero-sized inputs, both 'valid' convolutions accepted, and equal
convolved shapes. -/
def qcValidShapes (mo no mu nu : ℕ) : Prop :=
  (1 ≤ mu ∧ 1 ≤ nu ∧ 1 ≤ mo ∧ 1 ≤ no) ∧ shapeOK mu nu ∧ shapeOK mo no ∧
    convDim mo = convDim mu ∧ convDim no = convDim nu

instance (mo no mu nu : ℕ) : Decidable (qcValidShapes mo no mu nu) := by
  unfold qcValidShapes; infer_instance

/-! ## Basic facts about the model -/

theorem qc_toOption_some_iff {mo no mu nu nA : ℕ} {occ unocc : ℕ → ℕ → ℚ}
    {out : QCOut} :
    (quick_contrast mo no occ mu nu unocc nA).toOption = some out ↔
      qcValidShapes mo no mu nu ∧ out = qcCanonical mo no occ mu nu unocc nA := by
  unfold quick_contrast qcValidShapes
  split_ifs with h1 h2 h3 h4 <;> simp_all [Except.toOption, eq_comm]

theorem qc_toOption_none_iff {mo no mu nu nA : ℕ} {occ unocc : ℕ → ℕ → ℚ} :
    (quick_contrast mo no occ mu nu unocc nA).toOption = none ↔
      ¬ qcValidShapes mo no mu nu := by
  unfold quick_contrast qcValidShapes
  split_ifs with h1 h2 h3 h4 <;> simp_all [Except.toOption]

theorem qmax_cons (x y : ℚ) (t : List ℚ) :
    qmax (x :: y :: t) = max x (qmax (y :: t)) := by
  rw [qmax, max_def]

theorem le_qmax : ∀ {l : List ℚ} {x : ℚ}, x ∈ l → x ≤ qmax l
  | [], x, h => by simp at h
  | [y], x, h => by
    rw [List.mem_singleton] at h
    simp [qmax, h]
  | y :: z :: t, x, h => by
    rw [qmax_cons]
    rcases List.mem_cons.mp h with rfl | h'
    · exact le_max_left _ _
    · exact le_trans (le_qmax h') (le_max_right _ _)

theorem qmax_mem : ∀ {l : List ℚ}, l ≠ [] → qmax l ∈ l
  | [], h => absurd rfl h
  | [x], _ => by simp [qmax]
  | x :: y :: t, _ => by
    rw [qmax_cons]
    rcases max_cases x (qmax (y :: t)) with ⟨h, _⟩ | ⟨h, _⟩
    · rw [h]; exact List.mem_cons_self x _
    · rw [h]; exact List.mem_cons_of_mem _ (qmax_mem (by simp))

theorem qmax_nonneg {l : List ℚ} (h : ∀ x ∈ l, 0 ≤ x) : 0 ≤ qmax l := by
  cases l with
  | nil => simp [qmax]
  | cons x t => exact le_trans (h x (List.mem_cons_self x t)) (le_qmax (List.mem_cons_self x t))

theorem qmax_map_mul_left {c : ℚ} (hc : 0 ≤ c) :
    ∀ l : List ℚ, qmax (l.map (fun x => c * x)) = c * qmax l
  | [] => by simp [qmax]
  | [x] => by simp [qmax]
  | x :: y :: t => by
    have ih := qmax_map_mul_left hc (y :: t)
    simp only [List.map_cons] at ih ⊢
    rw [qmax_cons, qmax_cons, ih, mul_max_of_nonneg _ _ hc]

theorem qvar_nonneg (l : List ℚ) : 0 ≤ qvar l := by
  unfold qvar
  apply div_nonneg _ (by positivity)
  apply List.sum_nonneg
  intro x hx
  rcases List.mem_map.mp hx with ⟨y, _, rfl⟩
  positivity

theorem qvar_singleton (x : ℚ) : qvar [x] = 0 := by
  simp [qvar, qmean]

theorem qmean_map_mul_left (c : ℚ) (l : List ℚ) :
    qmean (l.map (fun x => c * x)) = c * qmean l := by
  unfold qmean
  rw [List.length_map]
  rw [show (l.map fun x => c * x) = l.map fun x => c * id x from by simp,
    List.sum_map_mul_left, List.map_id, mul_div_assoc]

theorem qvar_map_mul_left (c : ℚ) (l : List ℚ) :
    qvar (l.map (fun x => c * x)) = c ^ 2 * qvar l := by
  unfold qvar
  rw [List.length_map, qmean_map_mul_left, List.map_map]
  have : ((fun x => (x - c * qmean l) ^ 2) ∘ fun x => c * x) =
      fun x => c ^ 2 * ((x - qmean l) ^ 2) := by
    funext x
    simp only [Function.comp_apply]
    ring
  rw [this, show (l.map fun x => c ^ 2 * (x - qmean l) ^ 2) =
      l.map fun x => c ^ 2 * ((fun y => (y - qmean l) ^ 2) x) from rfl,
    List.sum_map_mul_left, mul_div_assoc]

theorem mem_gridPixels {dm dn i j : ℕ} :
    (i, j) ∈ gridPixels dm dn ↔ i < dm ∧ j < dn := by
  simp [gridPixels, List.mem_flatMap, List.mem_map, List.mem_range]

theorem gridPixels_ne_nil {dm dn : ℕ} (hm : 1 ≤ dm) (hn : 1 ≤ dn) :
    gridPixels dm dn ≠ [] := by
  intro h
  have : (0, 0) ∈ gridPixels dm dn := mem_gridPixels.mpr ⟨hm, hn⟩
  rw [h] at this
  simp at this

theorem radialSq_nonneg (dm dn i j : ℕ) : 0 ≤ radialSq dm dn i j := by
  unfold radialSq
  positivity

theorem radialSq_le_rmax {dm dn : ℕ} {p : ℕ × ℕ} (hp : p ∈ gridPixels dm dn) :
    radialSq dm dn p.1 p.2 ≤ rmaxGridSq dm dn :=
  le_qmax (List.mem_map.mpr ⟨p, hp, rfl⟩)

theorem exists_radialSq_eq_rmax {dm dn : ℕ} (hm : 1 ≤ dm) (hn : 1 ≤ dn) :
    ∃ p ∈ gridPixels dm dn, radialSq dm dn p.1 p.2 = rmaxGridSq dm dn := by
  have hne : (gridPixels dm dn).map (fun p => radialSq dm dn p.1 p.2) ≠ [] := by
    simp [gridPixels_ne_nil hm hn]
  rcases List.mem_map.mp (qmax_mem hne) with ⟨p, hp, hval⟩
  exact ⟨p, hp, hval⟩

theorem rmaxGridSq_nonneg (dm dn : ℕ) : 0 ≤ rmaxGridSq dm dn := by
  apply qmax_nonneg
  intro x hx
  rcases List.mem_map.mp hx with ⟨p, _, rfl⟩
  exact radialSq_nonneg _ _ _ _

theorem rmaxGridSq_pos {dm dn : ℕ} (hm : 1 ≤ dm) (hn : 1 ≤ dn) :
    0 < rmaxGridSq dm dn := by
  have h00 : (0, 0) ∈ gridPixels dm dn := mem_gridPixels.mpr ⟨hm, hn⟩
  have hle := radialSq_le_rmax h00
  have hdm : (1 : ℚ) ≤ (dm : ℚ) := by exact_mod_cast hm
  have hpos : 0 < radialSq dm dn 0 0 := by
    unfold radialSq centerCoord
    push_cast
    nlinarith [sq_nonneg ((0 : ℚ) - (dn : ℚ) / 2)]
  exact lt_of_lt_of_le hpos hle

/-- A decidable predicate on `ℕ` that is downward closed cuts `Finset.range n`
to an initial segment: the filtered set is `Finset.range` of its own card. -/
theorem filter_range_downward_eq (P : ℕ → Prop) [DecidablePred P]
    (hP : ∀ k, P (k + 1) → P k) :
    ∀ n : ℕ, (Finset.range n).filter P =
      Finset.range (((Finset.range n).filter P).card) := by
  have hdw : ∀ m k, k ≤ m → P m → P k := by
    intro m
    induction m with
    | zero =>
      intro k hk hP0
      rw [Nat.le_zero.mp hk]
      exact hP0
    | succ m ih =>
      intro k hk hPm
      rcases Nat.eq_or_lt_of_le hk with rfl | hlt
      · exact hPm
      · exact ih k (Nat.lt_succ_iff.mp hlt) (hP m hPm)
  intro n
  induction n with
  | zero => simp
  | succ n ih =>
    by_cases hPn : P n
    · have hall : (Finset.range (n + 1)).filter P = Finset.range (n + 1) := by
        rw [Finset.range_succ, Finset.filter_insert, if_pos hPn]
        congr 1
        apply Finset.filter_true_of_mem
        intro k hk
        exact hdw n k (Nat.le_of_lt (Finset.mem_range.mp hk)) hPn
      rw [hall, Finset.card_range]
    · have heq : (Finset.range (n + 1)).filter P = (Finset.range n).filter P := by
        rw [Finset.range_succ, Finset.filter_insert, if_neg hPn]
      rw [heq]
      exact ih

theorem annIdx_le (dm dn nA i j : ℕ) : annIdx dm dn nA i j ≤ nA := by
  unfold annIdx
  exact le_trans (Finset.card_filter_le _ _) (le_of_eq (Finset.card_range nA))

theorem annIdx_filter_eq (dm dn nA i j : ℕ) :
    ((Finset.range nA).filter
      (fun (k : ℕ) => ((k : ℚ)) ^ 2 * rmaxGridSq dm dn ≤
        radialSq dm dn i j * ((nA - 1 : ℕ) : ℚ) ^ 2)) =
      Finset.range (annIdx dm dn nA i j) := by
  unfold annIdx
  apply filter_range_downward_eq
  intro k hk
  refine le_trans (mul_le_mul_of_nonneg_right ?_ (rmaxGridSq_nonneg dm dn)) hk
  have : (k : ℚ) ≤ ((k + 1 : ℕ) : ℚ) := by push_cast; linarith
  have hk0 : (0 : ℚ) ≤ (k : ℚ) := by positivity
  nlinarith

theorem annIdx_pred_iff {dm dn nA i j k : ℕ} (hk : k < nA) :
    ((k : ℚ)) ^ 2 * rmaxGridSq dm dn ≤
        radialSq dm dn i j * ((nA - 1 : ℕ) : ℚ) ^ 2 ↔
      k < annIdx dm dn nA i j := by
  have h := annIdx_filter_eq dm dn nA i j
  constructor
  · intro hP
    have : k ∈ (Finset.range nA).filter
        (fun (k : ℕ) => ((k : ℚ)) ^ 2 * rmaxGridSq dm dn ≤
          radialSq dm dn i j * ((nA - 1 : ℕ) : ℚ) ^ 2) :=
      Finset.mem_filter.mpr ⟨Finset.mem_range.mpr hk, hP⟩
    rw [h] at this
    exact Finset.mem_range.mp this
  · intro hlt
    have : k ∈ Finset.range (annIdx dm dn nA i j) := Finset.mem_range.mpr hlt
    rw [← h] at this
    exact (Finset.mem_filter.mp this).2

theorem annIdx_pos {dm dn nA i j : ℕ} (hnA : 1 ≤ nA) :
    1 ≤ annIdx dm dn nA i j := by
  have h0 : ((0 : ℕ) : ℚ) ^ 2 * rmaxGridSq dm dn ≤
      radialSq dm dn i j * ((nA - 1 : ℕ) : ℚ) ^ 2 := by
    have h1 := radialSq_nonneg dm dn i j
    have h2 : (0 : ℚ) ≤ ((nA - 1 : ℕ) : ℚ) ^ 2 := by positivity
    simpa using mul_nonneg h1 h2
  exact (annIdx_pred_iff hnA).mp h0

theorem annIdx_eq_iff {dm dn nA i j a : ℕ} (ha1 : 1 ≤ a) (ha2 : a < nA) :
    annIdx dm dn nA i j = a ↔
      (((a - 1 : ℕ) : ℚ)) ^ 2 * rmaxGridSq dm dn ≤
          radialSq dm dn i j * ((nA - 1 : ℕ) : ℚ) ^ 2 ∧
        ¬ ((a : ℚ)) ^ 2 * rmaxGridSq dm dn ≤
          radialSq dm dn i j * ((nA - 1 : ℕ) : ℚ) ^ 2 := by
  constructor
  · intro heq
    constructor
    · exact (annIdx_pred_iff (lt_of_le_of_lt (Nat.sub_le a 1) ha2)).mpr
        (by rw [heq]; omega)
    · intro hPa
      have := (annIdx_pred_iff ha2).mp hPa
      omega
  · rintro ⟨hPa1, hPa⟩
    have h1 : a - 1 < annIdx dm dn nA i j :=
      (annIdx_pred_iff (lt_of_le_of_lt (Nat.sub_le a 1) ha2)).mp hPa1
    have h2 : ¬ a < annIdx dm dn nA i j := fun hlt =>
      hPa ((annIdx_pred_iff ha2).mpr hlt)
    omega

theorem annIdx_eq_top_iff {dm dn nA i j : ℕ} (hnA : 1 ≤ nA) :
    annIdx dm dn nA i j = nA ↔
      (((nA - 1 : ℕ) : ℚ)) ^ 2 * rmaxGridSq dm dn ≤
        radialSq dm dn i j * ((nA - 1 : ℕ) : ℚ) ^ 2 := by
  have hsub : nA - 1 < nA := by omega
  constructor
  · intro heq
    exact (annIdx_pred_iff hsub).mpr (by rw [heq]; omega)
  · intro hP
    have h1 := (annIdx_pred_iff hsub).mp hP
    have h2 := annIdx_le dm dn nA i j
    omega

theorem annIdx_eq_top_of_rmax_le {dm dn nA i j : ℕ} (hnA : 1 ≤ nA)
    (hR : rmaxGridSq dm dn ≤ radialSq dm dn i j) :
    annIdx dm dn nA i j = nA := by
  rw [annIdx_eq_top_iff hnA]
  have h0 : (0 : ℚ) ≤ (((nA - 1 : ℕ) : ℚ)) ^ 2 := by positivity
  calc (((nA - 1 : ℕ) : ℚ)) ^ 2 * rmaxGridSq dm dn
      ≤ (((nA - 1 : ℕ) : ℚ)) ^ 2 * radialSq dm dn i j :=
        mul_le_mul_of_nonneg_left hR h0
    _ = radialSq dm dn i j * (((nA - 1 : ℕ) : ℚ)) ^ 2 := mul_comm _ _

theorem mem_occupiedBins_iff {dm dn nA a : ℕ} :
    a ∈ occupiedBins dm dn nA ↔
      ∃ p ∈ gridPixels dm dn, annIdx dm dn nA p.1 p.2 = a := by
  unfold occupiedBins
  rw [List.mem_filter, List.any_eq_true]
  constructor
  · rintro ⟨-, p, hp, hpa⟩
    exact ⟨p, hp, by simpa using hpa⟩
  · rintro ⟨p, hp, hpa⟩
    refine ⟨List.mem_range.mpr ?_, p, hp, by simpa using hpa⟩
    have := annIdx_le dm dn nA p.1 p.2
    omega

theorem occupiedBins_sorted (dm dn nA : ℕ) :
    List.Sorted (· < ·) (occupiedBins dm dn nA) :=
  (List.sorted_lt_range (nA + 1)).filter _

theorem occupiedBins_getLast?_eq {dm dn nA : ℕ}
    (h : nA ∈ occupiedBins dm dn nA) :
    (occupiedBins dm dn nA).getLast? = some nA := by
  have hq := List.of_mem_filter h
  unfold occupiedBins at *
  rw [List.range_succ, List.filter_append]
  have hsing : List.filter
      (fun a => (gridPixels dm dn).any (fun p => annIdx dm dn nA p.1 p.2 == a))
      [nA] = [nA] := by
    simp only [List.filter, hq]
  rw [hsing, List.getLast?_concat]

/-- For nonnegative data, the `linspace`-edge comparison
`x / d * √R ≤ √r` is equivalent to its squared, division-free form. -/
theorem realEdge_le_sqrt_iff {x R r d : ℝ} (hx : 0 ≤ x) (hR : 0 ≤ R)
    (hr : 0 ≤ r) (hd : 0 < d) :
    x / d * Real.sqrt R ≤ Real.sqrt r ↔ x ^ 2 * R ≤ r * d ^ 2 := by
  rw [Real.le_sqrt (by positivity) hr, mul_pow, div_pow, Real.sq_sqrt hR,
    div_mul_eq_mul_div, div_le_iff₀ (by positivity)]

/-- Strict version of `realEdge_le_sqrt_iff`. -/
theorem sqrt_lt_realEdge_iff {x R r d : ℝ} (hx : 0 ≤ x) (hR : 0 ≤ R)
    (hr : 0 ≤ r) (hd : 0 < d) :
    Real.sqrt r < x / d * Real.sqrt R ↔ r * d ^ 2 < x ^ 2 * R := by
  rw [Real.sqrt_lt hr (by positivity), mul_pow, div_pow, Real.sq_sqrt hR,
    div_mul_eq_mul_div, lt_div_iff₀ (by positivity)]

theorem fullConv_mul_left (m n : ℕ) (f : ℕ → ℕ → ℚ) (c : ℚ) (u v : ℕ) :
    fullConv m n (fun i j => c * f i j) u v = c * fullConv m n f u v := by
  unfold fullConv
  rw [Finset.mul_sum]
  apply Finset.sum_congr rfl
  intro k _
  rw [Finset.mul_sum]
  apply Finset.sum_congr rfl
  intro l _
  split_ifs with h
  · ring
  · ring

theorem convValid_mul_left (m n : ℕ) (f : ℕ → ℕ → ℚ) (c : ℚ) (i j : ℕ) :
    convValid m n (fun i j => c * f i j) i j = c * convValid m n f i j :=
  fullConv_mul_left m n f c _ _

theorem uVals_mul_left (m n : ℕ) (f : ℕ → ℕ → ℚ) (c : ℚ) :
    uVals m n (fun i j => c * f i j) = (uVals m n f).map (fun x => c * x) := by
  unfold uVals
  rw [List.map_map]
  apply List.map_congr_left
  intro p _
  exact convValid_mul_left m n f c p.1 p.2

theorem filterMap_if_map {α : Type} (l : List α) (P : α → Prop)
    [DecidablePred P] (g : α → ℚ) (c : ℚ) :
    l.filterMap (fun p => if P p then some (c * g p) else none) =
      (l.filterMap (fun p => if P p then some (g p) else none)).map
        (fun x => c * x) := by
  induction l with
  | nil => rfl
  | cons x t ih =>
    by_cases hx : P x
    · simp only [List.filterMap_cons, if_pos hx, List.map_cons, ih]
    · simp only [List.filterMap_cons, if_neg hx, ih]

theorem binVals_mul_left (dm dn nA : ℕ) (g : ℕ → ℕ → ℚ) (c : ℚ) (a : ℕ) :
    binVals dm dn nA (fun i j => c * g i j) a =
      (binVals dm dn nA g a).map (fun x => c * x) := by
  unfold binVals
  exact filterMap_if_map _ _ _ c

theorem binVals_ne_nil {dm dn nA a : ℕ} {g : ℕ → ℕ → ℚ}
    (h : ∃ p ∈ gridPixels dm dn, annIdx dm dn nA p.1 p.2 = a) :
    binVals dm dn nA g a ≠ [] := by
  rcases h with ⟨p, hp, hpa⟩
  unfold binVals
  intro hnil
  rw [List.filterMap_eq_nil_iff] at hnil
  have := hnil p hp
  rw [if_pos hpa] at this
  exact Option.some_ne_none _ this

set_option maxRecDepth 100000

/-! ## Claim theorems -/

/-- C1, counterexample.  The claim asserts that convolving a 7×7 all-ones
`unocculted_image` with the aperture kernel gives a constant 3×3 image of
value 5 (`norm = 5`), and that a 7×7 occulted image that is all ones except
a 10 at the center pixel (3,3) yields a *nonzero* contrast in the annulus
containing the center (`n_annuli = 2`).  Both parts fail on the code: the
kernel has 13 unit weights, so `norm = 13 ≠ 5`; and every valid 5×5 window
of the 7×7 image covers the center pixel with weight 1, so the convolved
occulted image is constant (22 everywhere), every annulus has variance 0,
and every contrast value is `√0 / 13 = 0` — including the annulus
containing the center. -/
theorem C1_counterexample :
    (quick_contrast 7 7 (fun i j => if i = 3 ∧ j = 3 then 10 else 1)
        7 7 (fun _ _ => 1) 2).toOption =
      some ⟨3, 3, 2, 9/2, 13, [1, 2], [0, 0]⟩ ∧
    (13 : ℚ) ≠ 5 ∧
    Real.sqrt ((0 : ℚ) : ℝ) / ((13 : ℚ) : ℝ) = 0 := by
  refine ⟨by with_unfolding_all decide, by norm_num, ?_⟩
  rw [show ((0 : ℚ) : ℝ) = 0 from by norm_num, Real.sqrt_zero, zero_div]

/-- C1, amended.  For the 7×7 all-ones unocculted image the 'valid'
convolution with the aperture kernel is the constant 3×3 image of value 13
(the kernel has 13 unit weights), so `norm = 13`; with `n_annuli = 2` the
all-ones occulted image gives contrast exactly 0 in every annulus
(variances `[0, 0]`); the occulted image with a single 10 at the center
pixel (3,3) *also* gives contrast exactly 0 in every annulus, because
every valid window covers the center pixel with the same weight 1; moving
the spike to pixel (2,2) instead gives a nonzero contrast
(`√(1215/64) / 13 > 0`) in annulus index 1, the annulus containing the
pixels nearest the grid center. -/
theorem C1_amended :
    (gridPixels 3 3).map (fun p => convValid 7 7 (fun _ _ => 1) p.1 p.2) =
      [13, 13, 13, 13, 13, 13, 13, 13, 13] ∧
    (quick_contrast 7 7 (fun _ _ => 1) 7 7 (fun _ _ => 1) 2).toOption =
      some ⟨3, 3, 2, 9/2, 13, [1, 2], [0, 0]⟩ ∧
    (quick_contrast 7 7 (fun i j => if i = 3 ∧ j = 3 then 10 else 1)
        7 7 (fun _ _ => 1) 2).toOption =
      some ⟨3, 3, 2, 9/2, 13, [1, 2], [0, 0]⟩ ∧
    (quick_contrast 7 7 (fun i j => if i = 2 ∧ j = 2 then 10 else 1)
        7 7 (fun _ _ => 1) 2).toOption =
      some ⟨3, 3, 2, 9/2, 13, [1, 2], [1215/64, 0]⟩ ∧
    (0 : ℝ) < Real.sqrt ((1215/64 : ℚ) : ℝ) / ((13 : ℚ) : ℝ) := by
  refine ⟨by with_unfolding_all decide, by with_unfolding_all decide,
    by with_unfolding_all decide, by with_unfolding_all decide, ?_⟩
  apply div_pos
  · apply Real.sqrt_pos.mpr
    norm_num
  · norm_num

/-- C3, counterexample.  The claim asserts that `quick_contrast` fails
whenever either input image is smaller than the 5×5 kernel in either
dimension, and never silently produces a contrast curve from mismatched
input shapes.  On the code, a 3×3 occulted image (smaller than the kernel
in *both* dimensions) paired with a 7×7 unocculted image (mismatched
shapes) is accepted: `scipy.fftconvolve` swaps the operands when the
kernel is the larger one, `|3-5|+1 = |7-5|+1 = 3` makes the two convolved
shapes agree, and a contrast curve is returned. -/
theorem C3_counterexample :
    (quick_contrast 3 3 (fun _ _ => 1) 7 7 (fun _ _ => 1) 2).toOption =
      some ⟨3, 3, 2, 9/2, 13, [1, 2], [55/64, 0]⟩ ∧
    (3 : ℕ) < 5 ∧ ((3 : ℕ), (3 : ℕ)) ≠ ((7 : ℕ), (7 : ℕ)) := by
  exact ⟨by with_unfolding_all decide, by norm_num, by simp⟩

/-- C3, amended.  For nonzero-sized inputs, `quick_contrast` fails exactly
when `fftconvolve`'s 'valid'-mode shape requirement is violated for one of
the images (one dimension smaller than 5 and the other larger), or when
the two convolved outputs differ in shape (`|m-5|+1` along an axis).  An
image smaller than the kernel in *both* dimensions is accepted (the
operands swap roles), and mismatched input shapes with agreeing convolved
shapes (e.g. 3×3 against 7×7) silently produce a contrast curve. -/
theorem C3_amended (mo no mu nu nA : ℕ) (occ unocc : ℕ → ℕ → ℚ)
    (hmo : 1 ≤ mo) (hno : 1 ≤ no) (hmu : 1 ≤ mu) (hnu : 1 ≤ nu) :
    (quick_contrast mo no occ mu nu unocc nA).toOption = none ↔
      ¬ (shapeOK mu nu ∧ shapeOK mo no ∧
         convDim mo = convDim mu ∧ convDim no = convDim nu) := by
  rw [qc_toOption_none_iff]
  unfold qcValidShapes
  constructor
  · intro h hc
    exact h ⟨⟨hmu, hnu, hmo, hno⟩, hc⟩
  · intro h hv
    exact h hv.2

/-- Witness for `C3_amended`: a 3×7 image is smaller than the kernel along
the first axis and larger along the second, so the convolution (and hence
`quick_contrast`) fails. -/
theorem C3_amended_witness :
    (1 : ℕ) ≤ 3 ∧ (1 : ℕ) ≤ 7 ∧
    ((quick_contrast 3 7 (fun _ _ => 1) 3 7 (fun _ _ => 1) 2).toOption = none ↔
      ¬ (shapeOK 3 7 ∧ shapeOK 3 7 ∧
         convDim 3 = convDim 3 ∧ convDim 7 = convDim 7)) :=
  ⟨by norm_num, by norm_num,
    C3_amended 3 7 3 7 2 (fun _ _ => 1) (fun _ _ => 1)
      (by norm_num) (by norm_num) (by norm_num) (by norm_num)⟩

/-- C4, counterexample.  The claim asserts that when the peak of the
convolved unocculted image is zero, `quick_contrast` reports an explicit
fatal normalization failure instead of returning a contrast sequence.  On
the code, an all-zero 7×7 unocculted image gives `norm = 0`, NumPy's
array division by zero only emits a runtime warning, and the call returns
a contrast sequence normally. -/
theorem C4_counterexample :
    (quick_contrast 7 7 (fun _ _ => 1) 7 7 (fun _ _ => 0) 2).toOption =
      some ⟨3, 3, 2, 9/2, 0, [1, 2], [0, 0]⟩ := by
  with_unfolding_all decide

/-- C4, amended.  When the shapes are acceptable, `quick_contrast` returns
normally regardless of the normalization constant: with `norm = 0` it
still returns a result (whose `norm` field is 0; in NumPy the division
produces non-finite contrast entries with only a warning), rather than
reporting a failure. -/
theorem C4_amended (mo no mu nu nA : ℕ) (occ unocc : ℕ → ℕ → ℚ)
    (hv : qcValidShapes mo no mu nu)
    (hnorm : qmax (uVals mu nu unocc) = 0) :
    (quick_contrast mo no occ mu nu unocc nA).toOption.map QCOut.norm =
      some 0 := by
  have h : (quick_contrast mo no occ mu nu unocc nA).toOption =
      some (qcCanonical mo no occ mu nu unocc nA) :=
    qc_toOption_some_iff.mpr ⟨hv, rfl⟩
  rw [h]
  simp [qcCanonical, hnorm]

/-- Witness for `C4_amended`: all-zero 5×5 images. -/
theorem C4_amended_witness :
    qcValidShapes 5 5 5 5 ∧
    qmax (uVals 5 5 (fun _ _ => 0)) = 0 ∧
    (quick_contrast 5 5 (fun _ _ => 0) 5 5 (fun _ _ => 0) 2).toOption.map
      QCOut.norm = some 0 :=
  ⟨by decide, by with_unfolding_all decide,
    C4_amended 5 5 5 5 2 (fun _ _ => 0) (fun _ _ => 0) (by decide)
      (by with_unfolding_all decide)⟩

/-- C8: `quick_contrast` is deterministic and stateless.  In this shallow
embedding the routine is a pure function of its arguments — it reads no
global or mutable state (the source function only uses its parameters and
a locally constructed kernel) — so two calls with identical inputs are
definitionally the same value. -/
theorem C8_deterministic (mo no mu nu nA : ℕ) (occ unocc : ℕ → ℕ → ℚ) :
    quick_contrast mo no occ mu nu unocc nA =
      quick_contrast mo no occ mu nu unocc nA := rfl

/-- C10: the returned `radial_bins` (represented by `nA` and `rmaxSq`;
the edge list is `[k/(nA-1) * √rmaxSq | k < nA]`) depends only on the
shape of `unocculted_image` and on `n_annuli`: two successful runs whose
unocculted images share a shape `mu × nu` produce identical convolved-grid
shapes, identical `rmaxSq`, and identical edge lists, whatever the pixel
values of either input. -/
theorem C10_radial_bins_shape_only (mo1 no1 mo2 no2 mu nu nA : ℕ)
    (occ1 unocc1 occ2 unocc2 : ℕ → ℕ → ℚ) (out1 out2 : QCOut)
    (h1 : (quick_contrast mo1 no1 occ1 mu nu unocc1 nA).toOption = some out1)
    (h2 : (quick_contrast mo2 no2 occ2 mu nu unocc2 nA).toOption = some out2) :
    out1.dm = out2.dm ∧ out1.dn = out2.dn ∧ out1.nA = out2.nA ∧
      out1.rmaxSq = out2.rmaxSq ∧
      (List.range out1.nA).map (fun (k : ℕ) =>
          ((k : ℝ) / ((out1.nA : ℝ) - 1)) * Real.sqrt (out1.rmaxSq : ℝ)) =
        (List.range out2.nA).map (fun (k : ℕ) =>
          ((k : ℝ) / ((out2.nA : ℝ) - 1)) * Real.sqrt (out2.rmaxSq : ℝ)) := by
  obtain ⟨-, rfl⟩ := qc_toOption_some_iff.mp h1
  obtain ⟨-, rfl⟩ := qc_toOption_some_iff.mp h2
  exact ⟨rfl, rfl, rfl, rfl, rfl⟩

/-- Witness for `C10_radial_bins_shape_only`: an all-ones pair and a
different pair (spike occulted image, doubled unocculted image) with the
same 7×7 unocculted shape. -/
theorem C10_witness :
    (quick_contrast 7 7 (fun _ _ => 1) 7 7 (fun _ _ => 1) 2).toOption =
      some ⟨3, 3, 2, 9/2, 13, [1, 2], [0, 0]⟩ ∧
    (quick_contrast 7 7 (fun i j => if i = 2 ∧ j = 2 then 10 else 1)
        7 7 (fun _ _ => 2) 2).toOption =
      some ⟨3, 3, 2, 9/2, 26, [1, 2], [1215/64, 0]⟩ ∧
    ((3 : ℕ) = 3 ∧ (3 : ℕ) = 3 ∧ (2 : ℕ) = 2 ∧ (9/2 : ℚ) = 9/2 ∧
      (List.range 2).map (fun (k : ℕ) =>
          ((k : ℝ) / ((2 : ℝ) - 1)) * Real.sqrt ((9/2 : ℚ) : ℝ)) =
        (List.range 2).map (fun (k : ℕ) =>
          ((k : ℝ) / ((2 : ℝ) - 1)) * Real.sqrt ((9/2 : ℚ) : ℝ))) := by
  refine ⟨by with_unfolding_all decide, by with_unfolding_all decide, ?_⟩
  exact C10_radial_bins_shape_only 7 7 7 7 7 7 2 (fun _ _ => 1) (fun _ _ => 1)
    (fun i j => if i = 2 ∧ j = 2 then 10 else 1) (fun _ _ => 2)
    ⟨3, 3, 2, 9/2, 13, [1, 2], [0, 0]⟩ ⟨3, 3, 2, 9/2, 26, [1, 2], [1215/64, 0]⟩
    (by with_unfolding_all decide) (by with_unfolding_all decide)

theorem convDim_pos (m : ℕ) : 1 ≤ convDim m := by
  unfold convDim
  omega

/-- C9, counterexample.  The claim asserts every contrast value is ≥ 0 for
every valid input.  On the code, the normalization constant is the *peak*
of the convolved unocculted image, which the source never checks for
sign: an all-(-1) unocculted image (a real-valued, NaN-free input the spec
admits) gives `norm = -13`, and pairing it with an occulted image whose
annulus has positive variance yields the negative contrast value
`√(1215/64) / (-13) < 0`. -/
theorem C9_counterexample :
    (quick_contrast 7 7 (fun i j => if i = 2 ∧ j = 2 then 10 else 1)
        7 7 (fun _ _ => -1) 2).toOption =
      some ⟨3, 3, 2, 9/2, -13, [1, 2], [1215/64, 0]⟩ ∧
    Real.sqrt ((1215/64 : ℚ) : ℝ) / ((-13 : ℚ) : ℝ) < 0 := by
  refine ⟨by with_unfolding_all decide, ?_⟩
  apply div_neg_of_pos_of_neg
  · exact Real.sqrt_pos.mpr (by norm_num)
  · norm_num

/-- C9, amended.  If in addition the normalization constant is positive
(`norm > 0`, e.g. for a nonnegative unocculted image with a positive
response), then every per-annulus variance of a successful run is
nonnegative and every contrast value `√variance / norm` is ≥ 0. -/
theorem C9_amended (mo no mu nu nA : ℕ) (occ unocc : ℕ → ℕ → ℚ)
    (out : QCOut) (v : ℚ)
    (hok : (quick_contrast mo no occ mu nu unocc nA).toOption = some out)
    (hn : 0 < out.norm) (hv : v ∈ out.variances) :
    0 ≤ v ∧ 0 ≤ Real.sqrt (v : ℝ) / (out.norm : ℝ) := by
  obtain ⟨-, rfl⟩ := qc_toOption_some_iff.mp hok
  simp only [qcCanonical] at hv hn ⊢
  constructor
  · rcases List.mem_map.mp hv with ⟨b, -, rfl⟩
    exact qvar_nonneg _
  · apply div_nonneg (Real.sqrt_nonneg _)
    exact_mod_cast hn.le

/-- Witness for `C9_amended` at the all-ones 7×7 pair. -/
theorem C9_amended_witness :
    (quick_contrast 7 7 (fun _ _ => 1) 7 7 (fun _ _ => 1) 2).toOption =
      some ⟨3, 3, 2, 9/2, 13, [1, 2], [0, 0]⟩ ∧
    (0 : ℚ) < 13 ∧ (0 : ℚ) ∈ [(0 : ℚ), 0] ∧
    (0 ≤ (0 : ℚ) ∧ 0 ≤ Real.sqrt ((0 : ℚ) : ℝ) / ((13 : ℚ) : ℝ)) :=
  ⟨by with_unfolding_all decide, by norm_num, by simp,
    C9_amended 7 7 7 7 2 (fun _ _ => 1) (fun _ _ => 1)
      ⟨3, 3, 2, 9/2, 13, [1, 2], [0, 0]⟩ 0
      (by with_unfolding_all decide) (by norm_num) (by simp)⟩

/-- C5: for every successful run, `binsIdx` (= `np.unique(annuli_inds)`)
is strictly increasing; an index belongs to it exactly when some pixel of
the convolved grid is assigned to it (so empty annuli are omitted, never
reported as NaN); `variances` has exactly one entry per occupied index, in
that order; and an annulus containing exactly one pixel contributes
variance 0, i.e. contrast value `√0 / norm = 0`. -/
theorem C5_contrast_structure (mo no mu nu nA a : ℕ) (occ unocc : ℕ → ℕ → ℚ)
    (out : QCOut)
    (hok : (quick_contrast mo no occ mu nu unocc nA).toOption = some out) :
    List.Sorted (· < ·) out.binsIdx ∧
    (a ∈ out.binsIdx ↔ ∃ p ∈ gridPixels out.dm out.dn,
        annIdx out.dm out.dn out.nA p.1 p.2 = a) ∧
    out.variances = out.binsIdx.map
      (fun b => qvar (binVals out.dm out.dn out.nA (convValid mo no occ) b)) ∧
    out.variances.length = out.binsIdx.length ∧
    (a ∈ out.binsIdx →
      (binVals out.dm out.dn out.nA (convValid mo no occ) a).length = 1 →
      qvar (binVals out.dm out.dn out.nA (convValid mo no occ) a) = 0) := by
  obtain ⟨-, rfl⟩ := qc_toOption_some_iff.mp hok
  refine ⟨occupiedBins_sorted _ _ _, mem_occupiedBins_iff, rfl,
    List.length_map _ _, ?_⟩
  intro _ hlen
  rcases List.length_eq_one.mp hlen with ⟨x, hx⟩
  rw [hx, qvar_singleton]

/-- Witness for `C5_contrast_structure`: the all-ones 7×7 pair with
`n_annuli = 5`; only 3 of the 5 annuli are occupied (`binsIdx = [2,3,5]`),
so `contrast_values` has 3 < 5 entries. -/
theorem C5_witness :
    List.Sorted (· < ·) ([2, 3, 5] : List ℕ) ∧
    ((2 : ℕ) ∈ ([2, 3, 5] : List ℕ) ↔
      ∃ p ∈ gridPixels 3 3, annIdx 3 3 5 p.1 p.2 = 2) ∧
    ([(0 : ℚ), 0, 0] = ([2, 3, 5] : List ℕ).map
      (fun b => qvar (binVals 3 3 5 (convValid 7 7 (fun _ _ => 1)) b))) ∧
    ([(0 : ℚ), 0, 0].length = ([2, 3, 5] : List ℕ).length) ∧
    ((2 : ℕ) ∈ ([2, 3, 5] : List ℕ) →
      (binVals 3 3 5 (convValid 7 7 (fun _ _ => 1)) 2).length = 1 →
      qvar (binVals 3 3 5 (convValid 7 7 (fun _ _ => 1)) 2) = 0) :=
  C5_contrast_structure 7 7 7 7 5 2 (fun _ _ => 1) (fun _ _ => 1)
    ⟨3, 3, 5, 9/2, 13, [2, 3, 5], [0, 0, 0]⟩
    (by with_unfolding_all decide)

/-- C6: for every valid input (shapes acceptable with equal convolved
shapes, here expressed as success of the run, and `n_annuli ≥ 2`), the
returned `radial_bins = np.linspace(0, max(radial), n_annuli)` — the list
`[k/(nA-1) * √rmaxSq | k < nA]` — has exactly `nA` entries, starts at 0,
ends at `√rmaxSq`, has constant spacing `√rmaxSq / (nA-1)` between
consecutive edges, and its last entry is the maximum radial distance
present in the convolved grid: every pixel's radial distance is ≤ it and
some pixel attains it. -/
theorem C6_radial_bins (mo no mu nu nA k i j : ℕ) (occ unocc : ℕ → ℕ → ℚ)
    (out : QCOut)
    (hok : (quick_contrast mo no occ mu nu unocc nA).toOption = some out)
    (hnA : 2 ≤ nA) (hij : (i, j) ∈ gridPixels out.dm out.dn) :
    ((List.range out.nA).map (fun (t : ℕ) =>
        ((t : ℝ) / ((out.nA : ℝ) - 1)) * Real.sqrt (out.rmaxSq : ℝ))).length =
      out.nA ∧
    ((List.range out.nA).map (fun (t : ℕ) =>
        ((t : ℝ) / ((out.nA : ℝ) - 1)) * Real.sqrt (out.rmaxSq : ℝ))).head? =
      some 0 ∧
    ((List.range out.nA).map (fun (t : ℕ) =>
        ((t : ℝ) / ((out.nA : ℝ) - 1)) * Real.sqrt (out.rmaxSq : ℝ))).getLast? =
      some (Real.sqrt (out.rmaxSq : ℝ)) ∧
    (((k + 1 : ℕ) : ℝ) / ((out.nA : ℝ) - 1)) * Real.sqrt (out.rmaxSq : ℝ) -
        ((k : ℝ) / ((out.nA : ℝ) - 1)) * Real.sqrt (out.rmaxSq : ℝ) =
      Real.sqrt (out.rmaxSq : ℝ) / ((out.nA : ℝ) - 1) ∧
    Real.sqrt ((radialSq out.dm out.dn i j : ℚ) : ℝ) ≤
      Real.sqrt (out.rmaxSq : ℝ) ∧
    (∃ p ∈ gridPixels out.dm out.dn,
      radialSq out.dm out.dn p.1 p.2 = out.rmaxSq) := by
  obtain ⟨-, rfl⟩ := qc_toOption_some_iff.mp hok
  simp only [qcCanonical] at hij ⊢
  have hdm : 1 ≤ convDim mu := convDim_pos mu
  have hdn : 1 ≤ convDim nu := convDim_pos nu
  have hnA1 : (1 : ℝ) < (nA : ℝ) := by
    have : (2 : ℝ) ≤ (nA : ℝ) := by exact_mod_cast hnA
    linarith
  have hd0 : ((nA : ℝ) - 1) ≠ 0 := by linarith
  obtain ⟨m, rfl⟩ : ∃ m, nA = m + 1 := ⟨nA - 1, by omega⟩
  have hm1 : 1 ≤ m := by omega
  have hmR : (((m : ℕ) + 1 : ℕ) : ℝ) - 1 = (m : ℝ) := by push_cast; ring
  have hm0 : (m : ℝ) ≠ 0 := by
    have : (1 : ℝ) ≤ (m : ℝ) := by exact_mod_cast hm1
    linarith
  refine ⟨by rw [List.length_map, List.length_range], ?_, ?_, ?_, ?_, ?_⟩
  · rw [List.range_succ_eq_map]
    simp only [List.map_cons, List.head?_cons, Nat.cast_zero, zero_div,
      zero_mul]
  · rw [List.range_succ, List.map_append, List.map_singleton,
      List.getLast?_concat]
    rw [hmR, div_self hm0, one_mul]
  · rw [hmR]
    push_cast
    field_simp
    ring
  · apply Real.sqrt_le_sqrt
    exact_mod_cast radialSq_le_rmax hij
  · exact exists_radialSq_eq_rmax hdm hdn

/-- Witness for `C6_radial_bins`: the all-ones 7×7 pair, `n_annuli = 2`,
spacing checked at `k = 0`, pixel `(1,1)`. -/
theorem C6_witness :
    ((List.range 2).map (fun (t : ℕ) =>
        ((t : ℝ) / (((2 : ℕ) : ℝ) - 1)) * Real.sqrt ((9/2 : ℚ) : ℝ))).length =
      2 ∧
    ((List.range 2).map (fun (t : ℕ) =>
        ((t : ℝ) / (((2 : ℕ) : ℝ) - 1)) * Real.sqrt ((9/2 : ℚ) : ℝ))).head? =
      some 0 ∧
    ((List.range 2).map (fun (t : ℕ) =>
        ((t : ℝ) / (((2 : ℕ) : ℝ) - 1)) * Real.sqrt ((9/2 : ℚ) : ℝ))).getLast? =
      some (Real.sqrt ((9/2 : ℚ) : ℝ)) ∧
    (((0 + 1 : ℕ) : ℝ) / (((2 : ℕ) : ℝ) - 1)) * Real.sqrt ((9/2 : ℚ) : ℝ) -
        (((0 : ℕ) : ℝ) / (((2 : ℕ) : ℝ) - 1)) * Real.sqrt ((9/2 : ℚ) : ℝ) =
      Real.sqrt ((9/2 : ℚ) : ℝ) / (((2 : ℕ) : ℝ) - 1) ∧
    Real.sqrt ((radialSq 3 3 1 1 : ℚ) : ℝ) ≤ Real.sqrt ((9/2 : ℚ) : ℝ) ∧
    (∃ p ∈ gridPixels 3 3, radialSq 3 3 p.1 p.2 = (9/2 : ℚ)) :=
  C6_radial_bins 7 7 7 7 2 0 1 1 (fun _ _ => 1) (fun _ _ => 1)
    ⟨3, 3, 2, 9/2, 13, [1, 2], [0, 0]⟩ (by with_unfolding_all decide)
    (by norm_num) (by decide)

/-- C7: scale invariance.  Scaling both input images by the same positive
constant `c` leaves the contrast values unchanged: the convolution is
linear, so the convolved images scale by `c`, the peak `norm` scales by
`c`, each per-annulus variance scales by `c²` (hence each `np.std` by
`c`), and `c·std / (c·norm) = std / norm`.  The contrast list of a run is
`variances.map (fun v => √v / norm)`; the binning is unchanged since it
depends only on the grid shape. -/
theorem C7_scale_invariance (mo no mu nu nA : ℕ) (occ unocc : ℕ → ℕ → ℚ)
    (c : ℚ) (out : QCOut)
    (hc : 0 < c)
    (hok : (quick_contrast mo no occ mu nu unocc nA).toOption = some out)
    (hnorm : out.norm ≠ 0) :
    (quick_contrast mo no (fun i j => c * occ i j) mu nu
        (fun i j => c * unocc i j) nA).toOption.map
      (fun o => o.variances.map
        (fun (v : ℚ) => Real.sqrt (v : ℝ) / (o.norm : ℝ))) =
      some (out.variances.map
        (fun (v : ℚ) => Real.sqrt (v : ℝ) / (out.norm : ℝ))) ∧
    (quick_contrast mo no (fun i j => c * occ i j) mu nu
        (fun i j => c * unocc i j) nA).toOption.map QCOut.binsIdx =
      some out.binsIdx := by
  obtain ⟨hv, rfl⟩ := qc_toOption_some_iff.mp hok
  have hok2 : (quick_contrast mo no (fun i j => c * occ i j) mu nu
      (fun i j => c * unocc i j) nA).toOption =
      some (qcCanonical mo no (fun i j => c * occ i j) mu nu
        (fun i j => c * unocc i j) nA) :=
    qc_toOption_some_iff.mpr ⟨hv, rfl⟩
  rw [hok2]
  have hnorm2 : (qcCanonical mo no (fun i j => c * occ i j) mu nu
      (fun i j => c * unocc i j) nA).norm =
      c * (qcCanonical mo no occ mu nu unocc nA).norm := by
    simp only [qcCanonical]
    rw [uVals_mul_left, qmax_map_mul_left hc.le]
  have hg : convValid mo no (fun i j => c * occ i j) =
      fun i j => c * convValid mo no occ i j := by
    funext i j
    exact convValid_mul_left mo no occ c i j
  have hvars2 : (qcCanonical mo no (fun i j => c * occ i j) mu nu
      (fun i j => c * unocc i j) nA).variances =
      ((qcCanonical mo no occ mu nu unocc nA).variances).map
        (fun v => c ^ 2 * v) := by
    simp only [qcCanonical]
    rw [List.map_map]
    apply List.map_congr_left
    intro a _
    simp only [Function.comp_apply]
    rw [hg, binVals_mul_left, qvar_map_mul_left]
  constructor
  · simp only [Option.map_some']
    congr 1
    rw [hvars2, hnorm2, List.map_map]
    apply List.map_congr_left
    intro v _
    simp only [Function.comp_apply]
    push_cast
    rw [Real.sqrt_mul (by positivity) ((v : ℝ)),
      Real.sqrt_sq (show (0 : ℝ) ≤ (c : ℝ) by exact_mod_cast hc.le),
      mul_div_mul_left _ _ (show ((c : ℚ) : ℝ) ≠ 0 by exact_mod_cast hc.ne')]
  · simp only [Option.map_some']
    rfl

/-- Witness for `C7_scale_invariance`: the all-ones 7×7 pair scaled by 2. -/
theorem C7_witness :
    (0 : ℚ) < 2 ∧
    (quick_contrast 7 7 (fun _ _ => 1) 7 7 (fun _ _ => 1) 2).toOption =
      some ⟨3, 3, 2, 9/2, 13, [1, 2], [0, 0]⟩ ∧
    (13 : ℚ) ≠ 0 ∧
    ((quick_contrast 7 7 (fun i j => (2 : ℚ) * (fun _ _ => (1 : ℚ)) i j) 7 7
        (fun i j => (2 : ℚ) * (fun _ _ => (1 : ℚ)) i j) 2).toOption.map
      (fun o => o.variances.map
        (fun (v : ℚ) => Real.sqrt (v : ℝ) / (o.norm : ℝ))) =
      some (([(0 : ℚ), 0]).map
        (fun (v : ℚ) => Real.sqrt (v : ℝ) / ((13 : ℚ) : ℝ))) ∧
    (quick_contrast 7 7 (fun i j => (2 : ℚ) * (fun _ _ => (1 : ℚ)) i j) 7 7
        (fun i j => (2 : ℚ) * (fun _ _ => (1 : ℚ)) i j) 2).toOption.map
      QCOut.binsIdx = some [1, 2]) :=
  ⟨by norm_num, by with_unfolding_all decide, by norm_num,
    C7_scale_invariance 7 7 7 7 2 (fun _ _ => 1) (fun _ _ => 1) 2
      ⟨3, 3, 2, 9/2, 13, [1, 2], [0, 0]⟩ (by norm_num)
      (by with_unfolding_all decide) (by norm_num)⟩

/-- C2: bin membership follows NumPy's right-exclusive digitization over
the `linspace` edges `e_k = k/(nA-1) * √rmaxSq`: for interior indices
`1 ≤ a < nA`, a pixel of the convolved grid has annulus index `a` exactly
when `e_{a-1} ≤ r < e_a` holds for its radial distance `r`; every pixel
with `r ≥ e_{nA-1}` (the last edge, equal to the maximum radius present)
receives index `nA`, which is the last entry of the occupied-bin list
(`binsIdx.getLast?`), i.e. the final bin of the contrast sequence; and
every pixel's index lies in `[1, nA]`, so no bin beyond the `nA` annuli
is ever created. -/
theorem C2_digitize (mo no mu nu nA a i j : ℕ) (occ unocc : ℕ → ℕ → ℚ)
    (out : QCOut)
    (hok : (quick_contrast mo no occ mu nu unocc nA).toOption = some out)
    (hnA : 2 ≤ nA) (hij : (i, j) ∈ gridPixels out.dm out.dn)
    (ha1 : 1 ≤ a) (ha2 : a < nA) :
    (annIdx out.dm out.dn nA i j = a ↔
      (((a - 1 : ℕ) : ℝ) / ((nA : ℝ) - 1)) * Real.sqrt (out.rmaxSq : ℝ) ≤
          Real.sqrt ((radialSq out.dm out.dn i j : ℚ) : ℝ) ∧
        Real.sqrt ((radialSq out.dm out.dn i j : ℚ) : ℝ) <
          ((a : ℝ) / ((nA : ℝ) - 1)) * Real.sqrt (out.rmaxSq : ℝ)) ∧
    (Real.sqrt (out.rmaxSq : ℝ) ≤
        Real.sqrt ((radialSq out.dm out.dn i j : ℚ) : ℝ) →
      annIdx out.dm out.dn nA i j = nA ∧
      out.binsIdx.getLast? = some (annIdx out.dm out.dn nA i j)) ∧
    1 ≤ annIdx out.dm out.dn nA i j ∧ annIdx out.dm out.dn nA i j ≤ nA := by
  obtain ⟨-, rfl⟩ := qc_toOption_some_iff.mp hok
  simp only [qcCanonical] at hij ⊢
  have hdm : 1 ≤ convDim mu := convDim_pos mu
  have hdn : 1 ≤ convDim nu := convDim_pos nu
  have hR : 0 < rmaxGridSq (convDim mu) (convDim nu) := rmaxGridSq_pos hdm hdn
  have hrS : 0 ≤ radialSq (convDim mu) (convDim nu) i j :=
    radialSq_nonneg _ _ _ _
  have hRr : (0 : ℝ) ≤ ((rmaxGridSq (convDim mu) (convDim nu) : ℚ) : ℝ) := by
    exact_mod_cast hR.le
  have hrr : (0 : ℝ) ≤ ((radialSq (convDim mu) (convDim nu) i j : ℚ) : ℝ) := by
    exact_mod_cast hrS
  have hdpos : (0 : ℝ) < (nA : ℝ) - 1 := by
    have : (2 : ℝ) ≤ (nA : ℝ) := by exact_mod_cast hnA
    linarith
  have hcast_d : (((nA - 1 : ℕ) : ℚ) : ℝ) = (nA : ℝ) - 1 := by
    have h1 : 1 ≤ nA := by omega
    push_cast [h1]
    ring
  have hle : ∀ x : ℕ,
      ((x : ℚ) ^ 2 * rmaxGridSq (convDim mu) (convDim nu) ≤
        radialSq (convDim mu) (convDim nu) i j * ((nA - 1 : ℕ) : ℚ) ^ 2) ↔
      ((x : ℝ) / ((nA : ℝ) - 1)) *
          Real.sqrt ((rmaxGridSq (convDim mu) (convDim nu) : ℚ) : ℝ) ≤
        Real.sqrt ((radialSq (convDim mu) (convDim nu) i j : ℚ) : ℝ) := by
    intro x
    rw [realEdge_le_sqrt_iff (by positivity) hRr hrr hdpos, ← hcast_d]
    constructor
    · intro h
      exact_mod_cast h
    · intro h
      exact_mod_cast h
  have hlt : ∀ x : ℕ,
      (¬ ((x : ℚ) ^ 2 * rmaxGridSq (convDim mu) (convDim nu) ≤
        radialSq (convDim mu) (convDim nu) i j * ((nA - 1 : ℕ) : ℚ) ^ 2)) ↔
      Real.sqrt ((radialSq (convDim mu) (convDim nu) i j : ℚ) : ℝ) <
        ((x : ℝ) / ((nA : ℝ) - 1)) *
          Real.sqrt ((rmaxGridSq (convDim mu) (convDim nu) : ℚ) : ℝ) := by
    intro x
    rw [sqrt_lt_realEdge_iff (by positivity) hRr hrr hdpos, ← hcast_d, not_le]
    constructor
    · intro h
      exact_mod_cast h
    · intro h
      exact_mod_cast h
  refine ⟨?_, ?_, annIdx_pos (by omega), annIdx_le _ _ _ _ _⟩
  · exact (annIdx_eq_iff ha1 ha2).trans (and_congr (hle (a - 1)) (hlt a))
  · intro hsq
    have hR_le : rmaxGridSq (convDim mu) (convDim nu) ≤
        radialSq (convDim mu) (convDim nu) i j := by
      have h := (Real.sqrt_le_sqrt_iff hrr).mp hsq
      exact_mod_cast h
    have htop := annIdx_eq_top_of_rmax_le (show 1 ≤ nA by omega) hR_le
    refine ⟨htop, ?_⟩
    rw [htop]
    apply occupiedBins_getLast?_eq
    rcases exists_radialSq_eq_rmax hdm hdn with ⟨p, hp, hpr⟩
    exact mem_occupiedBins_iff.mpr
      ⟨p, hp, annIdx_eq_top_of_rmax_le (show 1 ≤ nA by omega)
        (le_of_eq hpr.symm)⟩

/-- Witness for `C2_digitize`: the all-ones 7×7 pair, `n_annuli = 2`,
pixel `(1,1)` of the 3×3 convolved grid, interior bin `a = 1`. -/
theorem C2_witness :
    (annIdx 3 3 2 1 1 = 1 ↔
      (((1 - 1 : ℕ) : ℝ) / (((2 : ℕ) : ℝ) - 1)) *
          Real.sqrt ((9/2 : ℚ) : ℝ) ≤
          Real.sqrt ((radialSq 3 3 1 1 : ℚ) : ℝ) ∧
        Real.sqrt ((radialSq 3 3 1 1 : ℚ) : ℝ) <
          (((1 : ℕ) : ℝ) / (((2 : ℕ) : ℝ) - 1)) *
            Real.sqrt ((9/2 : ℚ) : ℝ)) ∧
    (Real.sqrt ((9/2 : ℚ) : ℝ) ≤ Real.sqrt ((radialSq 3 3 1 1 : ℚ) : ℝ) →
      annIdx 3 3 2 1 1 = 2 ∧
      ([1, 2] : List ℕ).getLast? = some (annIdx 3 3 2 1 1)) ∧
    1 ≤ annIdx 3 3 2 1 1 ∧ annIdx 3 3 2 1 1 ≤ 2 :=
  C2_digitize 7 7 7 7 2 1 1 1 (fun _ _ => 1) (fun _ _ => 1)
    ⟨3, 3, 2, 9/2, 13, [1, 2], [0, 0]⟩ (by with_unfolding_all decide)
    (by norm_num) (by decide) (by norm_num) (by norm_num)
